import Mathlib

/-!
Verification development for the mini_alloc arena allocator
(src/src/allocator.cpp).

The arena is modelled as a record holding the total buffer size, the
doubly linked chain of block headers, and the payload byte contents.
Chain links are represented positionally: the chain in the source is
address ordered (next/prev always point to the physically adjacent
records), so a list in chain order carries the same information; each
block record additionally stores its header address (its offset from
heap_base), so that the "chain exactly tiles the arena" property is a
genuine proof obligation rather than a modelling artefact.

Machine integers: size_t arithmetic is modelled as Nat with explicit
reduction mod 2^64 exactly where the source can wrap (align_up, and the
initial payload computation).  Platform constants are those of x86-64
LP64: alignof(std::max_align_t) = 16, sizeof(Block) = 32 (8-byte size,
bool padded to 8, two 8-byte pointers, alignas(16)).

Header bytes are carried by the block records, not by the byte map: the
source never reads header fields through payload pointers on the paths
modelled here, and all header stores target header regions.
-/

namespace MiniAlloc

/-- Width of size_t: 2^64 (x86-64 LP64). -/
def SIZE_W : Nat := 2 ^ 64

/-- std::numeric_limits of size_t: max(). -/
def SIZE_MAX : Nat := 2 ^ 64 - 1

/-- ALIGNMENT = alignof(std::max_align_t) = 16 on x86-64. -/
def ALIGNMENT : Nat := 16

/-- MIN_BLOCK_SIZE = 32: minimum payload size. -/
def MIN_BLOCK_SIZE : Nat := 32

/-- sizeof(Block) = 32 on x86-64 (see header comment). -/
def SIZEOF_BLOCK : Nat := 32

/-- align_up(n, 16) = (n + 15) & ~15 in size_t arithmetic: the addition is
mod 2^64 and the mask clears the low four bits. -/
def align_up (n : Nat) : Nat :=
  ((n + (ALIGNMENT - 1)) % SIZE_W) / ALIGNMENT * ALIGNMENT

/-- Header size used by every payload/header conversion:
align_up(sizeof(Block)). -/
def HDR_SZ : Nat := align_up SIZEOF_BLOCK

theorem HDR_SZ_eq : HDR_SZ = 32 := by decide

/-- One chain record: header address (offset of the header from
heap_base), payload size, free flag.  next/prev are positional. -/
structure Block where
  addr : Nat
  size : Nat
  free : Bool
deriving DecidableEq, Repr

/-- Arena state: heap_total_size, the chain from head in address order,
and the payload byte contents (offset from heap_base, one Nat per byte). -/
structure Arena where
  total : Nat
  blocks : List Block
  mem : Nat → Nat

/-- std::memset over the byte map. -/
def memset (m : Nat → Nat) (dst len v : Nat) : Nat → Nat :=
  fun o => if dst ≤ o ∧ o < dst + len then v else m o

/-- std::memcpy over the byte map (regions disjoint on the modelled path). -/
def memcpy (m : Nat → Nat) (dst src len : Nat) : Nat → Nat :=
  fun o => if dst ≤ o ∧ o < dst + len then m (src + (o - dst)) else m o

/-- A caller writing one payload byte (environment action, used to build
concrete states; the allocator itself never does this). -/
def store (a : Arena) (off v : Nat) : Arena :=
  { a with mem := fun o => if o = off then v else a.mem o }

/-- init_allocator: round the size, zero the buffer, install one free
block spanning the arena minus one header.  heap_total_size - hdr_sz is
size_t subtraction, hence the explicit wrap. -/
def init_allocator (heap_size : Nat) : Arena :=
  { total := align_up heap_size
    blocks := [⟨0, (align_up heap_size + SIZE_W - HDR_SZ) % SIZE_W, true⟩]
    mem := fun _ => 0 }

/-- find_fit: first chain record that is free with payload ≥ asize;
returns its chain position together with the record. -/
def find_fit : List Block → Nat → Option (Nat × Block)
  | [], _ => none
  | b :: rest, asize =>
    if b.free = true ∧ asize ≤ b.size then some (0, b)
    else (find_fit rest asize).map (fun q => (q.1 + 1, q.2))

/-- The rounded request size computed identically in malloc and realloc:
align_up(size), raised to MIN_BLOCK_SIZE when below it. -/
def asizeOf (size : Nat) : Nat :=
  if align_up size < MIN_BLOCK_SIZE then MIN_BLOCK_SIZE else align_up size

/-- split_block at chain position i: refuses when the record is not
free; splits when the payload can hold asize plus a header plus
MIN_BLOCK_SIZE, placing the new free record at addr + hdr + asize; in
either case the record at i ends up not free. -/
def split_block : List Block → Nat → Nat → List Block
  | [], _, _ => []
  | b :: rest, 0, asize =>
    if b.free = true then
      if asize + HDR_SZ + MIN_BLOCK_SIZE ≤ b.size then
        { b with size := asize, free := false } ::
          ⟨b.addr + HDR_SZ + asize, b.size - asize - HDR_SZ, true⟩ :: rest
      else
        { b with free := false } :: rest
    else b :: rest
  | b :: rest, i + 1, asize => b :: split_block rest i asize

/-- Mark the record at chain position i free (free's step 6). -/
def setFree : List Block → Nat → List Block
  | [], _ => []
  | b :: rest, 0 => { b with free := true } :: rest
  | b :: rest, i + 1 => b :: setFree rest i

/-- Mark the record at chain position i not free (realloc line 188). -/
def setNotFree : List Block → Nat → List Block
  | [], _ => []
  | b :: rest, 0 => { b with free := false } :: rest
  | b :: rest, i + 1 => b :: setNotFree rest i

/-- Absorb the successor of position i: size += hdr + next.size, unlink
next.  Unconditional form, used by realloc's forward merge. -/
def absorb_next : List Block → Nat → List Block
  | b :: nxt :: rest, 0 => { b with size := b.size + HDR_SZ + nxt.size } :: rest
  | b :: rest, i + 1 => b :: absorb_next rest i
  | bs, _ => bs

/-- First half of coalesce: merge position i with its successor when the
successor is free. -/
def merge_next : List Block → Nat → List Block
  | b :: nxt :: rest, 0 =>
    if nxt.free = true then { b with size := b.size + HDR_SZ + nxt.size } :: rest
    else b :: nxt :: rest
  | b :: rest, i + 1 => b :: merge_next rest i
  | bs, _ => bs

/-- Second half of coalesce, acting at the predecessor position j: when
the record at j is free it absorbs its successor. -/
def merge_prev_into : List Block → Nat → List Block
  | pv :: b :: rest, 0 =>
    if pv.free = true then { pv with size := pv.size + HDR_SZ + b.size } :: rest
    else pv :: b :: rest
  | b :: rest, i + 1 => b :: merge_prev_into rest i
  | bs, _ => bs

/-- coalesce(b) with b at chain position i: merge the free successor
into b, then let a free predecessor absorb b. -/
def coalesce (bs : List Block) (i : Nat) : List Block :=
  match i with
  | 0 => merge_next bs 0
  | j + 1 => merge_prev_into (merge_next bs (j + 1)) j

/-- Chain position of the record whose header address is a.  The source
reaches the record by casting the address; on every path modelled here
the address is (or is checked to be) a chain record's header. -/
def findBlockIdx : List Block → Nat → Option (Nat × Block)
  | [], _ => none
  | b :: rest, a =>
    if b.addr = a then some (0, b)
    else (findBlockIdx rest a).map (fun q => (q.1 + 1, q.2))

/-- malloc: null on size 0; round the request; first-fit; split; return
the found record's payload address (header address + header size). -/
def malloc (a : Arena) (size : Nat) : Arena × Option Nat :=
  if size = 0 then (a, none)
  else
    let asize := asizeOf size
    match find_fit a.blocks asize with
    | none => (a, none)
    | some (i, b) =>
      ({ a with blocks := split_block a.blocks i asize }, some (b.addr + HDR_SZ))

/-- free: null is a no-op; a pointer at or past the arena end is
reported and ignored; a recovered header below the arena base is
reported and ignored; a record already free is a reported double free;
otherwise mark free and coalesce. -/
def free (a : Arena) (ptr : Option Nat) : Arena :=
  match ptr with
  | none => a
  | some p =>
    if a.total ≤ p then a
    else if p < HDR_SZ then a
    else
      match findBlockIdx a.blocks (p - HDR_SZ) with
      | none => a
      | some (i, b) =>
        if b.free = true then a
        else { a with blocks := coalesce (setFree a.blocks i) i }

/-- realloc's relocate tail: fresh malloc; on failure return null with
malloc's (unchanged) state; on success copy min(old payload, rounded
size) bytes and free the old pointer. -/
def reallocMove (a : Arena) (p : Nat) (b : Block) (new_size asize : Nat) :
    Arena × Option Nat :=
  match malloc a new_size with
  | (a1, none) => (a1, none)
  | (a1, some np) =>
    (free { a1 with mem := memcpy a1.mem np p (min b.size asize) } (some p),
      some np)

/-- realloc: null pointer acts as malloc; size 0 acts as free; a pointer
outside the heap is reported, returning null; in-place when the payload
already covers the rounded size; forward merge with a free successor
when the combined payload covers it (then split_block, then clear the
free flag); otherwise relocate. -/
def realloc (a : Arena) (ptr : Option Nat) (new_size : Nat) :
    Arena × Option Nat :=
  match ptr with
  | none => malloc a new_size
  | some p =>
    if new_size = 0 then (free a (some p), none)
    else if a.total ≤ p then (a, none)
    else
      match findBlockIdx a.blocks (p - HDR_SZ) with
      | none => (a, none)
      | some (i, b) =>
        let asize := asizeOf new_size
        if asize ≤ b.size then
          ({ a with blocks := split_block a.blocks i asize }, some p)
        else
          match a.blocks.get? (i + 1) with
          | some nxt =>
            if nxt.free = true ∧ asize ≤ b.size + HDR_SZ + nxt.size then
              ({ a with blocks :=
                  setNotFree (split_block (absorb_next a.blocks i) i asize) i },
                some p)
            else reallocMove a p b new_size asize
          | none => reallocMove a p b new_size asize

/-- calloc: null when either count is zero or the product would exceed
SIZE_MAX (checked as nmemb > SIZE_MAX / size); otherwise malloc the
product and zero the requested bytes. -/
def calloc (a : Arena) (nmemb size : Nat) : Arena × Option Nat :=
  if nmemb = 0 ∨ size = 0 then (a, none)
  else if SIZE_MAX / size < nmemb then (a, none)
  else
    match malloc a (nmemb * size) with
    | (a1, none) => (a1, none)
    | (a1, some p) =>
      ({ a1 with mem := memset a1.mem p (nmemb * size) 0 }, some p)

/-- The chain tiles [start, total): each header sits exactly at the end
of the previous payload and the last payload ends at total. -/
def chainTiles : List Block → Nat → Nat → Bool
  | [], start, total => start == total
  | b :: rest, start, total =>
    (b.addr == start) && chainTiles rest (start + HDR_SZ + b.size) total

/-- No two chain-adjacent records are both free. -/
def noAdjFree : List Block → Bool
  | b :: c :: rest => (!(b.free && c.free)) && noAdjFree (c :: rest)
  | _ => true

/-- Free flag of the chain head (false for the empty chain). -/
def headFree : List Block → Bool
  | [] => false
  | b :: _ => b.free

/-- Header addresses strictly increase along the chain. -/
def addrsIncr : List Block → Bool
  | b :: c :: rest => (b.addr < c.addr : Bool) && addrsIncr (c :: rest)
  | _ => true

/-- The reachable-state invariant: a nondegenerate arena whose chain
tiles it exactly, with no two adjacent free records. -/
def Inv (a : Arena) : Prop :=
  HDR_SZ ≤ a.total ∧ chainTiles a.blocks 0 a.total = true ∧
    noAdjFree a.blocks = true

/-- Arena states reachable from a nondegenerate initialization through
the public operations (plus caller payload writes, which touch no
metadata). -/
inductive Reachable : Arena → Prop
  | init (n : Nat) (h : HDR_SZ ≤ align_up n) : Reachable (init_allocator n)
  | mallocStep (a : Arena) (sz : Nat) (h : Reachable a) :
      Reachable (malloc a sz).1
  | freeStep (a : Arena) (p : Option Nat) (h : Reachable a) :
      Reachable (free a p)
  | reallocStep (a : Arena) (p : Option Nat) (sz : Nat) (h : Reachable a) :
      Reachable (realloc a p sz).1
  | callocStep (a : Arena) (n sz : Nat) (h : Reachable a) :
      Reachable (calloc a n sz).1
  | storeStep (a : Arena) (off v : Nat) (h : Reachable a) :
      Reachable (store a off v)

example : (malloc (init_allocator 1024) 64).2 = some 32 := by decide
example : (malloc (init_allocator 1024) 64).1.blocks =
    [⟨0, 64, false⟩, ⟨96, 896, true⟩] := by decide
example : (free (malloc (init_allocator 1024) 64).1 (some 32)).blocks =
    [⟨0, 992, true⟩] := by decide

theorem noAdjFree_cons (b : Block) (L : List Block) :
    noAdjFree (b :: L) = true ↔
      ((b.free = true → headFree L = false) ∧ noAdjFree L = true) := by
  cases L with
  | nil => simp [noAdjFree, headFree]
  | cons c rest =>
    simp only [noAdjFree, headFree, Bool.and_eq_true, Bool.not_eq_true',
      Bool.and_eq_false_iff]
    constructor
    · rintro ⟨h1, h2⟩
      refine ⟨fun hb => ?_, h2⟩
      rcases h1 with h | h
      · simp [hb] at h
      · exact h
    · rintro ⟨h1, h2⟩
      refine ⟨?_, h2⟩
      by_cases hb : b.free = true
      · exact Or.inr (h1 hb)
      · exact Or.inl (by simpa using hb)

theorem noAdjFree_tail (b : Block) (L : List Block)
    (h : noAdjFree (b :: L) = true) : noAdjFree L = true :=
  ((noAdjFree_cons b L).1 h).2

theorem find_fit_spec : ∀ (bs : List Block) (asize i : Nat) (b : Block),
    find_fit bs asize = some (i, b) →
      bs.get? i = some b ∧ b.free = true ∧ asize ≤ b.size ∧
        ∀ j c, j < i → bs.get? j = some c →
          ¬(c.free = true ∧ asize ≤ c.size)
  | [], _, _, _, h => by simp [find_fit] at h
  | b0 :: rest, asize, i, b, h => by
    by_cases hq : b0.free = true ∧ asize ≤ b0.size
    · simp only [find_fit, if_pos hq, Option.some.injEq, Prod.mk.injEq] at h
      obtain ⟨h1, h2⟩ := h
      subst h1; subst h2
      exact ⟨rfl, hq.1, hq.2, fun j c hj => by omega⟩
    · simp only [find_fit, if_neg hq] at h
      cases hr : find_fit rest asize with
      | none => rw [hr] at h; simp at h
      | some q =>
        rw [hr] at h
        simp only [Option.map_some', Option.some.injEq, Prod.mk.injEq] at h
        obtain ⟨h1, h2⟩ := h
        obtain ⟨hg, hf, hs, hmin⟩ := find_fit_spec rest asize q.1 q.2
          (by rw [hr])
        subst h1; subst h2
        refine ⟨by simpa using hg, hf, hs, fun j c hj hc => ?_⟩
        match j with
        | 0 =>
          simp only [List.get?_cons_zero, Option.some.injEq] at hc
          subst hc
          exact hq
        | j' + 1 =>
          exact hmin j' c (by omega) (by simpa using hc)

theorem findBlockIdx_spec : ∀ (bs : List Block) (a i : Nat) (b : Block),
    findBlockIdx bs a = some (i, b) → bs.get? i = some b ∧ b.addr = a
  | [], _, _, _, h => by simp [findBlockIdx] at h
  | b0 :: rest, a, i, b, h => by
    by_cases ha : b0.addr = a
    · simp only [findBlockIdx, if_pos ha, Option.some.injEq,
        Prod.mk.injEq] at h
      obtain ⟨h1, h2⟩ := h
      subst h1; subst h2
      exact ⟨rfl, ha⟩
    · simp only [findBlockIdx, if_neg ha] at h
      cases hr : findBlockIdx rest a with
      | none => rw [hr] at h; simp at h
      | some q =>
        rw [hr] at h
        simp only [Option.map_some', Option.some.injEq, Prod.mk.injEq] at h
        obtain ⟨h1, h2⟩ := h
        obtain ⟨hg, haddr⟩ := findBlockIdx_spec rest a q.1 q.2 (by rw [hr])
        subst h1; subst h2
        exact ⟨by simpa using hg, haddr⟩

theorem chainTiles_get_ge : ∀ (bs : List Block) (s t j : Nat) (c : Block),
    chainTiles bs s t = true → bs.get? j = some c → s ≤ c.addr
  | [], _, _, j, c, _, hg => by simp at hg
  | b :: rest, s, t, 0, c, ht, hg => by
    simp only [chainTiles, Bool.and_eq_true, beq_iff_eq] at ht
    simp only [List.get?_cons_zero, Option.some.injEq] at hg
    obtain ⟨h1, _⟩ := ht
    subst hg; omega
  | b :: rest, s, t, j + 1, c, ht, hg => by
    simp only [chainTiles, Bool.and_eq_true, beq_iff_eq] at ht
    have := chainTiles_get_ge rest (s + HDR_SZ + b.size) t j c ht.2
      (by simpa using hg)
    omega

theorem chainTiles_addr_lt : ∀ (bs : List Block) (s t j k : Nat)
    (c d : Block), chainTiles bs s t = true → j < k →
    bs.get? j = some c → bs.get? k = some d → c.addr < d.addr
  | [], _, _, _, _, _, _, _, _, hc, _ => by simp at hc
  | b :: rest, s, t, 0, k, c, d, ht, hjk, hc, hd => by
    simp only [chainTiles, Bool.and_eq_true, beq_iff_eq] at ht
    simp only [List.get?_cons_zero, Option.some.injEq] at hc
    obtain ⟨h1, h2⟩ := ht
    cases k with
    | zero => omega
    | succ k' =>
      have hge := chainTiles_get_ge rest (s + HDR_SZ + b.size) t k' d h2
        (by simpa using hd)
      have h32 : HDR_SZ = 32 := HDR_SZ_eq
      subst hc; omega
  | b :: rest, s, t, j + 1, k, c, d, ht, hjk, hc, hd => by
    simp only [chainTiles, Bool.and_eq_true, beq_iff_eq] at ht
    cases k with
    | zero => omega
    | succ k' =>
      exact chainTiles_addr_lt rest (s + HDR_SZ + b.size) t j k' c d ht.2
        (by omega) (by simpa using hc) (by simpa using hd)

theorem noAdjFree_get_adj : ∀ (bs : List Block) (i : Nat) (b c : Block),
    noAdjFree bs = true → bs.get? i = some b → bs.get? (i + 1) = some c →
      b.free = true → c.free = false
  | [], _, _, _, hn, hb, hc => by simp at hb
  | b0 :: rest, 0, b, c, hn, hb, hc => by
    intro hf
    simp only [List.get?_cons_zero, Option.some.injEq] at hb
    obtain ⟨h1, _⟩ := (noAdjFree_cons b0 rest).1 hn
    subst hb
    have hh := h1 hf
    cases rest with
    | nil => simp at hc
    | cons c0 rest' =>
      simp only [List.get?_cons_succ, List.get?_cons_zero,
        Option.some.injEq] at hc
      subst hc
      simpa [headFree] using hh
  | b0 :: rest, i + 1, b, c, hn, hb, hc =>
    noAdjFree_get_adj rest i b c (noAdjFree_tail b0 rest hn)
      (by simpa using hb) (by simpa using hc)

theorem headFree_split : ∀ (bs : List Block) (i asize : Nat),
    headFree (split_block bs i asize) = true → headFree bs = true
  | [], _, _, h => h
  | b :: rest, 0, asize, h => by
    by_cases hf : b.free = true
    · by_cases hc : asize + HDR_SZ + MIN_BLOCK_SIZE ≤ b.size
      · simp [split_block, hf, hc, headFree] at h
      · simp [split_block, hf, hc, headFree] at h
    · simpa [split_block, hf] using h
  | b :: rest, i + 1, asize, h => by
    simpa [split_block, headFree] using h

theorem split_tiles : ∀ (bs : List Block) (i asize s t : Nat),
    chainTiles bs s t = true → chainTiles (split_block bs i asize) s t = true
  | [], _, _, _, _, h => h
  | b :: rest, 0, asize, s, t, h => by
    simp only [chainTiles, Bool.and_eq_true, beq_iff_eq] at h
    obtain ⟨h1, h2⟩ := h
    by_cases hf : b.free = true
    · by_cases hc : asize + HDR_SZ + MIN_BLOCK_SIZE ≤ b.size
      · simp only [split_block, if_pos hf, if_pos hc, chainTiles,
          Bool.and_eq_true, beq_iff_eq]
        refine ⟨h1, by omega, ?_⟩
        have hstart : s + HDR_SZ + asize + HDR_SZ + (b.size - asize - HDR_SZ)
            = s + HDR_SZ + b.size := by omega
        rw [hstart]
        exact h2
      · simp only [split_block, if_pos hf, if_neg hc, chainTiles,
          Bool.and_eq_true, beq_iff_eq]
        exact ⟨h1, h2⟩
    · simp only [split_block, if_neg hf, chainTiles, Bool.and_eq_true,
        beq_iff_eq]
      exact ⟨h1, h2⟩
  | b :: rest, i + 1, asize, s, t, h => by
    simp only [split_block, chainTiles, Bool.and_eq_true, beq_iff_eq] at h ⊢
    exact ⟨h.1, split_tiles rest i asize _ t h.2⟩

theorem split_noAdj : ∀ (bs : List Block) (i asize : Nat),
    noAdjFree bs = true → noAdjFree (split_block bs i asize) = true
  | [], _, _, h => h
  | b :: rest, 0, asize, h => by
    obtain ⟨hhd, htl⟩ := (noAdjFree_cons b rest).1 h
    by_cases hf : b.free = true
    · by_cases hc : asize + HDR_SZ + MIN_BLOCK_SIZE ≤ b.size
      · rw [split_block, if_pos hf, if_pos hc]
        refine (noAdjFree_cons _ _).2 ⟨fun hb => by simp at hb, ?_⟩
        exact (noAdjFree_cons _ _).2 ⟨fun _ => hhd hf, htl⟩
      · rw [split_block, if_pos hf, if_neg hc]
        exact (noAdjFree_cons _ _).2 ⟨fun hb => by simp at hb, htl⟩
    · rw [split_block, if_neg hf]
      exact h
  | b :: rest, i + 1, asize, h => by
    obtain ⟨hhd, htl⟩ := (noAdjFree_cons b rest).1 h
    rw [split_block]
    refine (noAdjFree_cons _ _).2 ⟨fun hb => ?_, split_noAdj rest i asize htl⟩
    cases hh : headFree (split_block rest i asize) with
    | false => rfl
    | true =>
      have h1 := hhd hb
      have h2 := headFree_split rest i asize hh
      rw [h1] at h2; exact absurd h2 (by simp)

theorem setFree_tiles : ∀ (bs : List Block) (i s t : Nat),
    chainTiles (setFree bs i) s t = chainTiles bs s t
  | [], _, _, _ => rfl
  | b :: rest, 0, s, t => by simp [setFree, chainTiles]
  | b :: rest, i + 1, s, t => by
    simp [setFree, chainTiles, setFree_tiles rest i]

theorem setNotFree_tiles : ∀ (bs : List Block) (i s t : Nat),
    chainTiles (setNotFree bs i) s t = chainTiles bs s t
  | [], _, _, _ => rfl
  | b :: rest, 0, s, t => by simp [setNotFree, chainTiles]
  | b :: rest, i + 1, s, t => by
    simp [setNotFree, chainTiles, setNotFree_tiles rest i]

theorem headFree_setNotFree : ∀ (bs : List Block) (i : Nat),
    headFree (setNotFree bs i) = true → headFree bs = true
  | [], _, h => h
  | b :: rest, 0, h => by simp [setNotFree, headFree] at h
  | b :: rest, i + 1, h => by simpa [setNotFree, headFree] using h

theorem setNotFree_noAdj : ∀ (bs : List Block) (i : Nat),
    noAdjFree bs = true → noAdjFree (setNotFree bs i) = true
  | [], _, h => h
  | b :: rest, 0, h => by
    rw [setNotFree]
    refine (noAdjFree_cons _ _).2 ⟨fun hb => by simp at hb, ?_⟩
    exact noAdjFree_tail _ _ h
  | b :: rest, i + 1, h => by
    obtain ⟨hhd, htl⟩ := (noAdjFree_cons b rest).1 h
    rw [setNotFree]
    refine (noAdjFree_cons _ _).2 ⟨fun hb => ?_, setNotFree_noAdj rest i htl⟩
    cases hh : headFree (setNotFree rest i) with
    | false => rfl
    | true =>
      have h1 := hhd hb
      have h2 := headFree_setNotFree rest i hh
      rw [h1] at h2; exact absurd h2 (by simp)

theorem chainTiles_cons (b : Block) (rest : List Block) (s t : Nat) :
    chainTiles (b :: rest) s t = true ↔
      (b.addr = s ∧ chainTiles rest (s + HDR_SZ + b.size) t = true) := by
  simp only [chainTiles, Bool.and_eq_true, beq_iff_eq]

theorem absorb_tiles : ∀ (bs : List Block) (i s t : Nat),
    chainTiles bs s t = true → chainTiles (absorb_next bs i) s t = true
  | [], _, _, _, h => h
  | [b], 0, s, t, h => h
  | b :: nxt :: rest, 0, s, t, h => by
    simp only [chainTiles, Bool.and_eq_true, beq_iff_eq] at h
    obtain ⟨h1, h2, h3⟩ := h
    simp only [absorb_next, chainTiles, Bool.and_eq_true, beq_iff_eq]
    refine ⟨h1, ?_⟩
    have hstart : s + HDR_SZ + (b.size + HDR_SZ + nxt.size) =
        s + HDR_SZ + b.size + HDR_SZ + nxt.size := by omega
    rw [hstart]
    exact h3
  | b :: nxt :: rest, i + 1, s, t, h => by
    rw [absorb_next]
    obtain ⟨h1, h2⟩ := (chainTiles_cons b (nxt :: rest) s t).1 h
    exact (chainTiles_cons _ _ s t).2
      ⟨h1, absorb_tiles (nxt :: rest) i _ t h2⟩
  | [b], i + 1, s, t, h => h

theorem headFree_absorb : ∀ (bs : List Block) (i : Nat),
    headFree (absorb_next bs i) = headFree bs
  | [], _ => rfl
  | [b], 0 => rfl
  | b :: nxt :: rest, 0 => by simp [absorb_next, headFree]
  | b :: nxt :: rest, i + 1 => by simp [absorb_next, headFree]
  | [b], i + 1 => rfl

theorem absorb_noAdj : ∀ (bs : List Block) (i : Nat) (b : Block),
    bs.get? i = some b → b.free = false → noAdjFree bs = true →
      noAdjFree (absorb_next bs i) = true
  | [], _, _, hg, _, _ => by simp at hg
  | [b0], 0, b, hg, hf, hn => hn
  | b0 :: nxt :: rest, 0, b, hg, hf, hn => by
    simp only [List.get?_cons_zero, Option.some.injEq] at hg
    subst hg
    rw [absorb_next]
    refine (noAdjFree_cons _ _).2 ⟨fun hb => ?_, ?_⟩
    · simp only [] at hb
      rw [hf] at hb; exact absurd hb (by simp)
    · exact noAdjFree_tail _ _ (noAdjFree_tail _ _ hn)
  | b0 :: nxt :: rest, i + 1, b, hg, hf, hn => by
    rw [absorb_next]
    refine (noAdjFree_cons _ _).2 ⟨fun hb => ?_, absorb_noAdj (nxt :: rest) i b
      (by simpa using hg) hf (noAdjFree_tail _ _ hn)⟩
    cases hh : headFree (absorb_next (nxt :: rest) i) with
    | false => rfl
    | true =>
      have h1 := ((noAdjFree_cons _ _).1 hn).1 hb
      have h2 : headFree (nxt :: rest) = true := by
        rw [← headFree_absorb (nxt :: rest) i]; exact hh
      rw [h1] at h2; exact absurd h2 (by simp)
  | [b0], i + 1, b, hg, hf, hn => hn

theorem merge_next_cases : ∀ (bs : List Block) (i : Nat),
    merge_next bs i = absorb_next bs i ∨ merge_next bs i = bs
  | [], _ => Or.inr rfl
  | [b], 0 => Or.inr rfl
  | b :: nxt :: rest, 0 => by
    by_cases hf : nxt.free = true
    · left; rw [merge_next, absorb_next, if_pos hf]
    · right; rw [merge_next, if_neg hf]
  | b :: nxt :: rest, i + 1 => by
    rcases merge_next_cases (nxt :: rest) i with h | h
    · left; rw [merge_next, absorb_next, h]
    · right; rw [merge_next, h]
  | [b], i + 1 => Or.inr rfl

theorem merge_prev_cases : ∀ (bs : List Block) (i : Nat),
    merge_prev_into bs i = absorb_next bs i ∨ merge_prev_into bs i = bs
  | [], _ => Or.inr rfl
  | [b], 0 => Or.inr rfl
  | pv :: b :: rest, 0 => by
    by_cases hf : pv.free = true
    · left; rw [merge_prev_into, absorb_next, if_pos hf]
    · right; rw [merge_prev_into, if_neg hf]
  | b :: nxt :: rest, i + 1 => by
    rcases merge_prev_cases (nxt :: rest) i with h | h
    · left; rw [merge_prev_into, absorb_next, h]
    · right; rw [merge_prev_into, h]
  | [b], i + 1 => Or.inr rfl

theorem merge_next_tiles (bs : List Block) (i s t : Nat)
    (h : chainTiles bs s t = true) :
    chainTiles (merge_next bs i) s t = true := by
  rcases merge_next_cases bs i with hm | hm <;> rw [hm]
  · exact absorb_tiles bs i s t h
  · exact h

theorem merge_prev_tiles (bs : List Block) (i s t : Nat)
    (h : chainTiles bs s t = true) :
    chainTiles (merge_prev_into bs i) s t = true := by
  rcases merge_prev_cases bs i with hm | hm <;> rw [hm]
  · exact absorb_tiles bs i s t h
  · exact h

theorem coalesce_tiles (bs : List Block) (i s t : Nat)
    (h : chainTiles bs s t = true) :
    chainTiles (coalesce bs i) s t = true := by
  unfold coalesce
  cases i with
  | zero => exact merge_next_tiles bs 0 s t h
  | succ j =>
    exact merge_prev_tiles _ j s t (merge_next_tiles bs (j + 1) s t h)

theorem merge_next_nil (i : Nat) : merge_next [] i = [] := rfl

theorem merge_next_single (b : Block) (i : Nat) : merge_next [b] i = [b] :=
  by cases i <;> rfl

theorem merge_prev_nil (i : Nat) : merge_prev_into [] i = [] := rfl

theorem merge_prev_single (b : Block) (i : Nat) :
    merge_prev_into [b] i = [b] := by cases i <;> rfl

theorem headFree_merge_prev : ∀ (bs : List Block) (i : Nat),
    headFree (merge_prev_into bs i) = headFree bs
  | [], _ => rfl
  | [b], 0 => rfl
  | pv :: b :: rest, 0 => by
    by_cases hf : pv.free = true
    · simp [merge_prev_into, if_pos hf, headFree]
    · simp [merge_prev_into, if_neg hf, headFree]
  | b :: nxt :: rest, i + 1 => by simp [merge_prev_into, headFree]
  | [b], i + 1 => rfl

theorem headFree_merge_next_succ : ∀ (bs : List Block) (i : Nat),
    headFree (merge_next bs (i + 1)) = headFree bs
  | [], _ => rfl
  | [b], i => rfl
  | b :: nxt :: rest, i => by simp [merge_next, headFree]

theorem headFree_setFree_succ : ∀ (bs : List Block) (i : Nat),
    headFree (setFree bs (i + 1)) = headFree bs
  | [], _ => rfl
  | b :: rest, i => by simp [setFree, headFree]

theorem headFree_freeAt_succ (bs : List Block) (i : Nat) :
    headFree (coalesce (setFree bs (i + 1)) (i + 1)) = headFree bs := by
  unfold coalesce
  rw [headFree_merge_prev, headFree_merge_next_succ, headFree_setFree_succ]

theorem coalesce_setFree_cons (x : Block) (L : List Block) (i : Nat) :
    coalesce (setFree (x :: L) (i + 2)) (i + 2) =
      x :: coalesce (setFree L (i + 1)) (i + 1) := by
  show merge_prev_into (merge_next (x :: setFree L (i + 1)) (i + 2)) (i + 1)
      = x :: merge_prev_into (merge_next (setFree L (i + 1)) (i + 1)) i
  cases hL : setFree L (i + 1) with
  | nil =>
    rw [merge_next_nil, merge_prev_nil, merge_next_single, merge_prev_single]
  | cons y M =>
    show merge_prev_into (x :: merge_next (y :: M) (i + 1)) (i + 1) =
      x :: merge_prev_into (merge_next (y :: M) (i + 1)) i
    cases hK : merge_next (y :: M) (i + 1) with
    | nil => rw [merge_prev_nil, merge_prev_single]
    | cons z N => rfl

theorem freeAt_noAdj : ∀ (bs : List Block) (i : Nat) (b : Block),
    bs.get? i = some b → b.free = false → noAdjFree bs = true →
      noAdjFree (coalesce (setFree bs i) i) = true
  | [], _, _, hg, _, _ => by simp at hg
  | b0 :: rest, 0, b, hg, hf, hn => by
    simp only [List.get?_cons_zero, Option.some.injEq] at hg
    subst hg
    show noAdjFree (merge_next ({ b0 with free := true } :: rest) 0) = true
    cases rest with
    | nil => rfl
    | cons nxt rest2 =>
      by_cases hnf : nxt.free = true
      · rw [merge_next, if_pos hnf]
        refine (noAdjFree_cons _ _).2 ⟨fun _ => ?_, ?_⟩
        · exact ((noAdjFree_cons nxt rest2).1
            (noAdjFree_tail _ _ hn)).1 hnf
        · exact noAdjFree_tail _ _ (noAdjFree_tail _ _ hn)
      · rw [merge_next, if_neg hnf]
        refine (noAdjFree_cons _ _).2 ⟨fun _ => ?_, noAdjFree_tail _ _ hn⟩
        simp only [headFree]
        exact Bool.not_eq_true nxt.free ▸ (by simpa using hnf)
  | p :: rest, 1, b, hg, hf, hn => by
    simp only [List.get?_cons_succ] at hg
    cases rest with
    | nil => simp at hg
    | cons b0 rest2 =>
      simp only [List.get?_cons_zero, Option.some.injEq] at hg
      subst hg
      show noAdjFree (merge_prev_into
        (merge_next (p :: { b0 with free := true } :: rest2) 1) 0) = true
      rw [merge_next]
      cases rest2 with
      | nil =>
        show noAdjFree (merge_prev_into
          (p :: merge_next [{ b0 with free := true }] 0) 0) = true
        rw [merge_next_single, merge_prev_into]
        by_cases hp : p.free = true
        · rw [if_pos hp]; rfl
        · rw [if_neg hp]
          refine (noAdjFree_cons _ _).2 ⟨fun hb => absurd hb hp, by rfl⟩
      | cons n rest3 =>
        show noAdjFree (merge_prev_into
          (p :: merge_next ({ b0 with free := true } :: n :: rest3) 0) 0)
          = true
        by_cases hnf : n.free = true
        · rw [merge_next, if_pos hnf, merge_prev_into]
          have htl3 : noAdjFree rest3 = true :=
            noAdjFree_tail _ _ (noAdjFree_tail _ _ (noAdjFree_tail _ _ hn))
          have hr3 : n.free = true → headFree rest3 = false :=
            ((noAdjFree_cons n rest3).1
              (noAdjFree_tail _ _ (noAdjFree_tail _ _ hn))).1
          by_cases hp : p.free = true
          · rw [if_pos hp]
            exact (noAdjFree_cons _ _).2 ⟨fun _ => hr3 hnf, htl3⟩
          · rw [if_neg hp]
            refine (noAdjFree_cons _ _).2 ⟨fun hb => absurd hb hp, ?_⟩
            exact (noAdjFree_cons _ _).2 ⟨fun _ => hr3 hnf, htl3⟩
        · rw [merge_next, if_neg hnf, merge_prev_into]
          have htl2 : noAdjFree (n :: rest3) = true :=
            noAdjFree_tail _ _ (noAdjFree_tail _ _ hn)
          have hnfalse : headFree (n :: rest3) = false := by
            simp only [headFree]
            exact Bool.not_eq_true n.free ▸ (by simpa using hnf)
          by_cases hp : p.free = true
          · rw [if_pos hp]
            exact (noAdjFree_cons _ _).2 ⟨fun _ => hnfalse, htl2⟩
          · rw [if_neg hp]
            refine (noAdjFree_cons _ _).2 ⟨fun hb => absurd hb hp, ?_⟩
            exact (noAdjFree_cons _ _).2 ⟨fun _ => hnfalse, htl2⟩
  | x :: rest, i + 2, b, hg, hf, hn => by
    rw [coalesce_setFree_cons]
    refine (noAdjFree_cons _ _).2 ⟨fun hx => ?_,
      freeAt_noAdj rest (i + 1) b (by simpa using hg) hf
        (noAdjFree_tail _ _ hn)⟩
    rw [headFree_freeAt_succ]
    exact ((noAdjFree_cons x rest).1 hn).1 hx

theorem align_up_lt (n : Nat) : align_up n < SIZE_W := by
  have h1 : (n + (ALIGNMENT - 1)) % SIZE_W < SIZE_W := by
    refine Nat.mod_lt _ ?_
    norm_num [SIZE_W]
  have h2 : (n + (ALIGNMENT - 1)) % SIZE_W / ALIGNMENT * ALIGNMENT ≤
      (n + (ALIGNMENT - 1)) % SIZE_W := Nat.div_mul_le_self _ _
  unfold align_up
  omega

theorem init_Inv (n : Nat) (h : HDR_SZ ≤ align_up n) :
    Inv (init_allocator n) := by
  have hlt : align_up n < SIZE_W := align_up_lt n
  have h32 : HDR_SZ = 32 := HDR_SZ_eq
  have hW : SIZE_W = 18446744073709551616 := by norm_num [SIZE_W]
  refine ⟨h, ?_, rfl⟩
  show chainTiles [⟨0, (align_up n + SIZE_W - HDR_SZ) % SIZE_W, true⟩] 0
    (align_up n) = true
  simp only [chainTiles, Bool.and_eq_true, beq_iff_eq]
  simp only [h32, hW] at h hlt ⊢
  refine ⟨trivial, ?_⟩
  omega

theorem malloc_Inv (a : Arena) (sz : Nat) (h : Inv a) :
    Inv (malloc a sz).1 := by
  obtain ⟨h1, h2, h3⟩ := h
  unfold malloc
  by_cases hz : sz = 0
  · simp only [if_pos hz]; exact ⟨h1, h2, h3⟩
  · simp only [if_neg hz]
    cases hf : find_fit a.blocks (asizeOf sz) with
    | none => exact ⟨h1, h2, h3⟩
    | some q =>
      obtain ⟨i, b⟩ := q
      exact ⟨h1, split_tiles _ _ _ _ _ h2, split_noAdj _ _ _ h3⟩

theorem free_Inv (a : Arena) (p : Option Nat) (h : Inv a) : Inv (free a p) := by
  obtain ⟨h1, h2, h3⟩ := h
  unfold free
  cases p with
  | none => exact ⟨h1, h2, h3⟩
  | some p =>
    by_cases hb1 : a.total ≤ p
    · simp only [if_pos hb1]; exact ⟨h1, h2, h3⟩
    · simp only [if_neg hb1]
      by_cases hb2 : p < HDR_SZ
      · simp only [if_pos hb2]; exact ⟨h1, h2, h3⟩
      · simp only [if_neg hb2]
        cases hfb : findBlockIdx a.blocks (p - HDR_SZ) with
        | none => exact ⟨h1, h2, h3⟩
        | some q =>
          obtain ⟨i, b⟩ := q
          by_cases hbf : b.free = true
          · simp only [if_pos hbf]; exact ⟨h1, h2, h3⟩
          · simp only [if_neg hbf]
            have hget := (findBlockIdx_spec _ _ _ _ hfb).1
            refine ⟨h1, ?_, ?_⟩
            · refine coalesce_tiles _ i 0 a.total ?_
              rw [setFree_tiles]; exact h2
            · exact freeAt_noAdj a.blocks i b hget
                (by simpa using hbf) h3

theorem reallocMove_Inv (a : Arena) (p : Nat) (b : Block) (ns asz : Nat)
    (h : Inv a) : Inv (reallocMove a p b ns asz).1 := by
  unfold reallocMove
  have hm := malloc_Inv a ns h
  cases hmm : malloc a ns with
  | mk a1 r =>
    rw [hmm] at hm
    cases r with
    | none => exact hm
    | some np =>
      refine free_Inv _ _ ?_
      exact ⟨hm.1, hm.2.1, hm.2.2⟩

theorem realloc_Inv (a : Arena) (p : Option Nat) (ns : Nat) (h : Inv a) :
    Inv (realloc a p ns).1 := by
  unfold realloc
  cases p with
  | none => exact malloc_Inv a ns h
  | some p =>
    by_cases h0 : ns = 0
    · simp only [if_pos h0]
      exact free_Inv a _ h
    · simp only [if_neg h0]
      by_cases hp : a.total ≤ p
      · simp only [if_pos hp]; exact h
      · simp only [if_neg hp]
        cases hfb : findBlockIdx a.blocks (p - HDR_SZ) with
        | none => exact h
        | some q =>
          obtain ⟨i, b⟩ := q
          simp only []
          by_cases hsz : asizeOf ns ≤ b.size
          · simp only [if_pos hsz]
            exact ⟨h.1, split_tiles _ _ _ _ _ h.2.1, split_noAdj _ _ _ h.2.2⟩
          · simp only [if_neg hsz]
            cases hnx : a.blocks.get? (i + 1) with
            | none => exact reallocMove_Inv a p b ns (asizeOf ns) h
            | some nxt =>
              by_cases hgrow : nxt.free = true ∧
                  asizeOf ns ≤ b.size + HDR_SZ + nxt.size
              · simp only [if_pos hgrow]
                have hget := (findBlockIdx_spec _ _ _ _ hfb).1
                have hbf : b.free = false := by
                  cases hbf' : b.free with
                  | false => rfl
                  | true =>
                    have had := noAdjFree_get_adj a.blocks i b nxt h.2.2
                      hget hnx hbf'
                    rw [hgrow.1] at had
                    exact absurd had (by simp)
                refine ⟨h.1, ?_, ?_⟩
                · rw [setNotFree_tiles]
                  exact split_tiles _ _ _ _ _ (absorb_tiles _ _ _ _ h.2.1)
                · refine setNotFree_noAdj _ _ (split_noAdj _ _ _ ?_)
                  exact absorb_noAdj a.blocks i b hget hbf h.2.2
              · simp only [if_neg hgrow]
                exact reallocMove_Inv a p b ns (asizeOf ns) h

theorem calloc_Inv (a : Arena) (n sz : Nat) (h : Inv a) :
    Inv (calloc a n sz).1 := by
  unfold calloc
  by_cases h1 : n = 0 ∨ sz = 0
  · simp only [if_pos h1]; exact h
  · simp only [if_neg h1]
    by_cases h2 : SIZE_MAX / sz < n
    · simp only [if_pos h2]; exact h
    · simp only [if_neg h2]
      have hm := malloc_Inv a (n * sz) h
      cases hmm : malloc a (n * sz) with
      | mk a1 r =>
        rw [hmm] at hm
        cases r with
        | none => exact hm
        | some p => exact ⟨hm.1, hm.2.1, hm.2.2⟩

theorem reachable_Inv (a : Arena) (h : Reachable a) : Inv a := by
  induction h with
  | init n hn => exact init_Inv n hn
  | mallocStep a sz _ ih => exact malloc_Inv a sz ih
  | freeStep a p _ ih => exact free_Inv a p ih
  | reallocStep a p sz _ ih => exact realloc_Inv a p sz ih
  | callocStep a n sz _ ih => exact calloc_Inv a n sz ih
  | storeStep a off v _ ih => exact ⟨ih.1, ih.2.1, ih.2.2⟩

theorem split_block_not_free : ∀ (bs : List Block) (i asize : Nat)
    (b : Block), bs.get? i = some b → b.free = false →
      split_block bs i asize = bs
  | [], _, _, _, _, _ => rfl
  | b0 :: rest, 0, asize, b, hg, hf => by
    simp only [List.get?_cons_zero, Option.some.injEq] at hg
    subst hg
    rw [split_block, if_neg (by simp [hf])]
  | b0 :: rest, i + 1, asize, b, hg, hf => by
    rw [split_block,
      split_block_not_free rest i asize b (by simpa using hg) hf]

theorem split_block_eq : ∀ (bs : List Block) (i asize : Nat) (b : Block),
    bs.get? i = some b → b.free = true →
    split_block bs i asize =
      if asize + HDR_SZ + MIN_BLOCK_SIZE ≤ b.size then
        bs.take i ++ { b with size := asize, free := false } ::
          (⟨b.addr + HDR_SZ + asize, b.size - asize - HDR_SZ, true⟩ : Block)
            :: bs.drop (i + 1)
      else bs.take i ++ { b with free := false } :: bs.drop (i + 1)
  | [], _, _, _, hg, _ => by simp at hg
  | b0 :: rest, 0, asize, b, hg, hf => by
    simp only [List.get?_cons_zero, Option.some.injEq] at hg
    subst hg
    rw [split_block, if_pos hf]
    by_cases hc : asize + HDR_SZ + MIN_BLOCK_SIZE ≤ b0.size
    · rw [if_pos hc, if_pos hc]; simp
    · rw [if_neg hc, if_neg hc]; simp
  | b0 :: rest, i + 1, asize, b, hg, hf => by
    rw [split_block, split_block_eq rest i asize b (by simpa using hg) hf]
    by_cases hc : asize + HDR_SZ + MIN_BLOCK_SIZE ≤ b.size
    · rw [if_pos hc, if_pos hc]
      simp [List.take_succ_cons, List.drop_succ_cons]
    · rw [if_neg hc, if_neg hc]
      simp [List.take_succ_cons, List.drop_succ_cons]

theorem setNotFree_id : ∀ (bs : List Block) (i : Nat) (b : Block),
    bs.get? i = some b → b.free = false → setNotFree bs i = bs
  | [], _, _, _, _ => rfl
  | b0 :: rest, 0, b, hg, hf => by
    simp only [List.get?_cons_zero, Option.some.injEq] at hg
    subst hg
    rw [setNotFree]
    cases b0 with
    | mk ad sz fr =>
      simp only at hf
      rw [hf]
  | b0 :: rest, i + 1, b, hg, hf => by
    rw [setNotFree, setNotFree_id rest i b (by simpa using hg) hf]

theorem addrsIncr_cons2 (b c : Block) (rest : List Block) :
    addrsIncr (b :: c :: rest) = true ↔
      (b.addr < c.addr ∧ addrsIncr (c :: rest) = true) := by
  simp [addrsIncr]

theorem addrsIncr_tail (b : Block) (L : List Block)
    (h : addrsIncr (b :: L) = true) : addrsIncr L = true := by
  cases L with
  | nil => rfl
  | cons c rest => exact ((addrsIncr_cons2 b c rest).1 h).2

theorem addrsIncr_of_tiles : ∀ (bs : List Block) (s t : Nat),
    chainTiles bs s t = true → addrsIncr bs = true
  | [], _, _, _ => rfl
  | [b], _, _, _ => rfl
  | b :: c :: rest, s, t, h => by
    obtain ⟨h1, h2⟩ := (chainTiles_cons _ _ _ _).1 h
    obtain ⟨h3, _⟩ := (chainTiles_cons _ _ _ _).1 h2
    refine (addrsIncr_cons2 _ _ _).2
      ⟨?_, addrsIncr_of_tiles (c :: rest) _ t h2⟩
    have h32 : HDR_SZ = 32 := HDR_SZ_eq
    omega

theorem addrsIncr_head_lt : ∀ (b : Block) (L : List Block) (k : Nat)
    (c : Block), addrsIncr (b :: L) = true → L.get? k = some c →
      b.addr < c.addr
  | _, [], k, c, _, hg => by simp at hg
  | b, c0 :: L', 0, c, h, hg => by
    simp only [List.get?_cons_zero, Option.some.injEq] at hg
    subst hg
    exact ((addrsIncr_cons2 _ _ _).1 h).1
  | b, c0 :: L', k + 1, c, h, hg => by
    have h1 := (addrsIncr_cons2 _ _ _).1 h
    have h2 := addrsIncr_head_lt c0 L' k c h1.2 (by simpa using hg)
    omega

theorem Inv_ne_nil (a : Arena) (h : Inv a) : a.blocks ≠ [] := by
  intro hnil
  obtain ⟨h1, h2, _⟩ := h
  rw [hnil] at h2
  simp only [chainTiles, beq_iff_eq] at h2
  have h32 : HDR_SZ = 32 := HDR_SZ_eq
  omega

theorem freeAt_addr_free : ∀ (bs : List Block) (i : Nat) (b : Block),
    addrsIncr bs = true → bs.get? i = some b →
    ∀ j c, (coalesce (setFree bs i) i).get? j = some c →
      c.addr = b.addr → c.free = true
  | [], _, _, _, hg => by simp at hg
  | b0 :: rest, 0, b, hIncr, hg => by
    simp only [List.get?_cons_zero, Option.some.injEq] at hg
    subst hg
    intro j c hjc hca
    rw [show coalesce (setFree (b0 :: rest) 0) 0 =
      merge_next ({ b0 with free := true } :: rest) 0 from rfl] at hjc
    cases rest with
    | nil =>
      rw [merge_next_single] at hjc
      cases j with
      | zero =>
        simp only [List.get?_cons_zero, Option.some.injEq] at hjc
        rw [← hjc]
      | succ j' => simp at hjc
    | cons nxt rest2 =>
      by_cases hnf : nxt.free = true
      · rw [merge_next, if_pos hnf] at hjc
        cases j with
        | zero =>
          simp only [List.get?_cons_zero, Option.some.injEq] at hjc
          rw [← hjc]
        | succ j' =>
          have hlt := addrsIncr_head_lt b0 (nxt :: rest2) (j' + 1) c hIncr
            (by simpa using hjc)
          exact absurd hca (by omega)
      · rw [merge_next, if_neg hnf] at hjc
        cases j with
        | zero =>
          simp only [List.get?_cons_zero, Option.some.injEq] at hjc
          rw [← hjc]
        | succ j' =>
          have hlt := addrsIncr_head_lt b0 (nxt :: rest2) j' c hIncr
            (by simpa using hjc)
          exact absurd hca (by omega)
  | p0 :: rest, 1, b, hIncr, hg => by
    simp only [List.get?_cons_succ] at hg
    cases rest with
    | nil => simp at hg
    | cons b0 rest2 =>
      simp only [List.get?_cons_zero, Option.some.injEq] at hg
      subst hg
      intro j c hjc hca
      have hp0b : p0.addr < b0.addr :=
        ((addrsIncr_cons2 _ _ _).1 hIncr).1
      have hIncr2 : addrsIncr (b0 :: rest2) = true :=
        addrsIncr_tail _ _ hIncr
      rw [show coalesce (setFree (p0 :: b0 :: rest2) 1) 1 =
        merge_prev_into
          (p0 :: merge_next ({ b0 with free := true } :: rest2) 0) 0
        from rfl] at hjc
      cases rest2 with
      | nil =>
        rw [merge_next_single, merge_prev_into] at hjc
        by_cases hp : p0.free = true
        · rw [if_pos hp] at hjc
          cases j with
          | zero =>
            simp only [List.get?_cons_zero, Option.some.injEq] at hjc
            rw [← hjc] at hca
            exact absurd hca (by simp only []; omega)
          | succ j' => simp at hjc
        · rw [if_neg hp] at hjc
          cases j with
          | zero =>
            simp only [List.get?_cons_zero, Option.some.injEq] at hjc
            rw [← hjc] at hca
            exact absurd hca (by omega)
          | succ j' =>
            cases j' with
            | zero =>
              simp only [List.get?_cons_succ, List.get?_cons_zero,
                Option.some.injEq] at hjc
              rw [← hjc]
            | succ j'' => simp at hjc
      | cons n rest3 =>
        by_cases hnf : n.free = true
        · rw [merge_next, if_pos hnf, merge_prev_into] at hjc
          by_cases hp : p0.free = true
          · rw [if_pos hp] at hjc
            cases j with
            | zero =>
              simp only [List.get?_cons_zero, Option.some.injEq] at hjc
              rw [← hjc] at hca
              exact absurd hca (by simp only []; omega)
            | succ j' =>
              have hlt := addrsIncr_head_lt b0 (n :: rest3) (j' + 1) c
                hIncr2 (by simpa using hjc)
              exact absurd hca (by omega)
          · rw [if_neg hp] at hjc
            cases j with
            | zero =>
              simp only [List.get?_cons_zero, Option.some.injEq] at hjc
              rw [← hjc] at hca
              exact absurd hca (by omega)
            | succ j' =>
              cases j' with
              | zero =>
                simp only [List.get?_cons_succ, List.get?_cons_zero,
                  Option.some.injEq] at hjc
                rw [← hjc]
              | succ j'' =>
                have hlt := addrsIncr_head_lt b0 (n :: rest3) (j'' + 1) c
                  hIncr2 (by simpa using hjc)
                exact absurd hca (by omega)
        · rw [merge_next, if_neg hnf, merge_prev_into] at hjc
          by_cases hp : p0.free = true
          · rw [if_pos hp] at hjc
            cases j with
            | zero =>
              simp only [List.get?_cons_zero, Option.some.injEq] at hjc
              rw [← hjc] at hca
              exact absurd hca (by simp only []; omega)
            | succ j' =>
              have hlt := addrsIncr_head_lt b0 (n :: rest3) j' c
                hIncr2 (by simpa using hjc)
              exact absurd hca (by omega)
          · rw [if_neg hp] at hjc
            cases j with
            | zero =>
              simp only [List.get?_cons_zero, Option.some.injEq] at hjc
              rw [← hjc] at hca
              exact absurd hca (by omega)
            | succ j' =>
              cases j' with
              | zero =>
                simp only [List.get?_cons_succ, List.get?_cons_zero,
                  Option.some.injEq] at hjc
                rw [← hjc]
              | succ j'' =>
                have hlt := addrsIncr_head_lt b0 (n :: rest3) j'' c
                  hIncr2 (by simpa using hjc)
                exact absurd hca (by omega)
  | x :: rest, i + 2, b, hIncr, hg => by
    intro j c hjc hca
    rw [coalesce_setFree_cons] at hjc
    cases j with
    | zero =>
      simp only [List.get?_cons_zero, Option.some.injEq] at hjc
      have hlt := addrsIncr_head_lt x rest (i + 1) b hIncr
        (by simpa using hg)
      rw [← hjc] at hca
      exact absurd hca (by omega)
    | succ j' =>
      exact freeAt_addr_free rest (i + 1) b (addrsIncr_tail _ _ hIncr)
        (by simpa using hg) j' c (by simpa using hjc) hca

theorem free_idem (a : Arena) (p : Nat) (h : Inv a) :
    free (free a (some p)) (some p) = free a (some p) := by
  by_cases hb1 : a.total ≤ p
  · have h1 : free a (some p) = a := by simp only [free, if_pos hb1]
    rw [h1]
    exact h1
  · by_cases hb2 : p < HDR_SZ
    · have h1 : free a (some p) = a := by
        simp only [free, if_neg hb1, if_pos hb2]
      rw [h1]
      exact h1
    · cases hfb : findBlockIdx a.blocks (p - HDR_SZ) with
      | none =>
        have h1 : free a (some p) = a := by
          simp only [free, if_neg hb1, if_neg hb2, hfb]
        rw [h1]
        exact h1
      | some q =>
        obtain ⟨i, b⟩ := q
        by_cases hbf : b.free = true
        · have h1 : free a (some p) = a := by
            simp only [free, if_neg hb1, if_neg hb2, hfb, if_pos hbf]
          rw [h1]
          exact h1
        · have hstep : free a (some p) =
              { a with blocks := coalesce (setFree a.blocks i) i } := by
            simp only [free, if_neg hb1, if_neg hb2, hfb, if_neg hbf]
          obtain ⟨hget, haddr⟩ := findBlockIdx_spec _ _ _ _ hfb
          have hIncr : addrsIncr a.blocks = true :=
            addrsIncr_of_tiles a.blocks 0 a.total h.2.1
          rw [hstep]
          cases hfb2 : findBlockIdx (coalesce (setFree a.blocks i) i)
              (p - HDR_SZ) with
          | none =>
            simp only [free, if_neg hb1, if_neg hb2, hfb2]
          | some q2 =>
            obtain ⟨j, c⟩ := q2
            obtain ⟨hget2, haddr2⟩ := findBlockIdx_spec _ _ _ _ hfb2
            have hcf : c.free = true :=
              freeAt_addr_free a.blocks i b hIncr hget j c hget2
                (by rw [haddr2, haddr])
            simp only [free, if_neg hb1, if_neg hb2, hfb2, if_pos hcf]

theorem malloc_eq (a : Arena) (sz : Nat) (hn : sz ≠ 0) :
    malloc a sz =
      match find_fit a.blocks (asizeOf sz) with
      | none => (a, none)
      | some (i, b) =>
        ({ a with blocks := split_block a.blocks i (asizeOf sz) },
          some (b.addr + HDR_SZ)) := by
  simp only [malloc, if_neg hn]

/-- Claim C1: for every reachable arena state the block chain exactly
partitions the arena: the first header is at the arena base, each
successor header starts right after the previous payload, the last
payload ends exactly at arena_base + arena_total_size, and allocate,
release, resize and zero-allocate all preserve this gapless tiling. -/
theorem claim_C1 (a : Arena) (h : Reachable a) :
    (a.blocks ≠ [] ∧ chainTiles a.blocks 0 a.total = true) ∧
    (∀ sz, chainTiles (malloc a sz).1.blocks 0 (malloc a sz).1.total
      = true) ∧
    (∀ p, chainTiles (free a p).blocks 0 (free a p).total = true) ∧
    (∀ p sz, chainTiles (realloc a p sz).1.blocks 0
      (realloc a p sz).1.total = true) ∧
    (∀ n sz, chainTiles (calloc a n sz).1.blocks 0
      (calloc a n sz).1.total = true) := by
  have hI := reachable_Inv a h
  refine ⟨⟨Inv_ne_nil a hI, hI.2.1⟩, ?_, ?_, ?_, ?_⟩
  · intro sz; exact (malloc_Inv a sz hI).2.1
  · intro p; exact (free_Inv a p hI).2.1
  · intro p sz; exact (realloc_Inv a p sz hI).2.1
  · intro n sz; exact (calloc_Inv a n sz hI).2.1

theorem claim_C1_witness :
    chainTiles (malloc (init_allocator 1024) 64).1.blocks 0
      (malloc (init_allocator 1024) 64).1.total = true :=
  (claim_C1 _ (Reachable.mallocStep _ _
    (Reachable.init 1024 (by decide)))).1.2

/-- Claim C2: in every reachable arena state no two chain-adjacent block
records are both free; in particular after any release completes no two
adjacent blocks are free (coalescing is eager). -/
theorem claim_C2 (a : Arena) (h : Reachable a) :
    noAdjFree a.blocks = true ∧
      ∀ p, noAdjFree (free a p).blocks = true := by
  have hI := reachable_Inv a h
  exact ⟨hI.2.2, fun p => (free_Inv a p hI).2.2⟩

theorem claim_C2_witness :
    noAdjFree (free (malloc (init_allocator 1024) 64).1 (some 32)).blocks
      = true :=
  (claim_C2 _ (Reachable.freeStep _ _ (Reachable.mallocStep _ _
    (Reachable.init 1024 (by decide))))).1

/-- Claim C9: release of a null pointer is a no-op; a pointer at or past
the arena end, or one whose recovered header would lie below the arena
base, leaves the state unchanged (reported); releasing an already-free
block leaves the state unchanged (reported double release); hence
releasing the same pointer twice changes the chain only once. -/
theorem claim_C9 (a : Arena) (p : Nat) :
    free a none = a ∧
    (a.total ≤ p → free a (some p) = a) ∧
    (p < HDR_SZ → free a (some p) = a) ∧
    (∀ i b, findBlockIdx a.blocks (p - HDR_SZ) = some (i, b) →
      b.free = true → free a (some p) = a) ∧
    (Reachable a → free (free a (some p)) (some p) = free a (some p)) := by
  refine ⟨rfl, ?_, ?_, ?_, ?_⟩
  · intro h1; simp only [free, if_pos h1]
  · intro h2
    by_cases h1 : a.total ≤ p
    · simp only [free, if_pos h1]
    · simp only [free, if_neg h1, if_pos h2]
  · intro i b hfb hbf
    by_cases h1 : a.total ≤ p
    · simp only [free, if_pos h1]
    · by_cases h2 : p < HDR_SZ
      · simp only [free, if_neg h1, if_pos h2]
      · simp only [free, if_neg h1, if_neg h2, hfb, if_pos hbf]
  · intro hr
    exact free_idem a p (reachable_Inv a hr)

theorem claim_C9_witness :
    free (init_allocator 1024) (some 2000) = init_allocator 1024 ∧
    free (free (malloc (init_allocator 1024) 64).1 (some 32)) (some 32) =
      free (malloc (init_allocator 1024) 64).1 (some 32) := by
  constructor
  · exact (claim_C9 (init_allocator 1024) 2000).2.1 (by decide)
  · exact (claim_C9 _ 32).2.2.2.2 (Reachable.mallocStep _ _
      (Reachable.init 1024 (by decide)))

/-- Claim C10: for any requested size above SIZE_MAX - (ALIGNMENT - 1)
the round-up (n + a - 1) mask computation wraps mod 2^64 to a value
below the minimum payload size, so allocate raises it to
MIN_BLOCK_SIZE and can hand out a block whose payload is far smaller
than the request. -/
theorem claim_C10 (n : Nat) (h1 : SIZE_MAX - (ALIGNMENT - 1) < n)
    (h2 : n ≤ SIZE_MAX) :
    align_up n = 0 ∧ align_up n < MIN_BLOCK_SIZE ∧
    asizeOf n = MIN_BLOCK_SIZE ∧
    (malloc (init_allocator 1024) n).2 = some HDR_SZ ∧
    ∃ blk, (malloc (init_allocator 1024) n).1.blocks.get? 0 = some blk ∧
      blk.size = MIN_BLOCK_SIZE ∧ blk.free = false ∧ blk.size < n := by
  have hM : SIZE_MAX = 18446744073709551615 := by norm_num [SIZE_MAX]
  have hAl : ALIGNMENT = 16 := rfl
  have hW : SIZE_W = 18446744073709551616 := by norm_num [SIZE_W]
  rw [hM, hAl] at h1
  rw [hM] at h2
  have hA : align_up n = 0 := by
    show (n + (ALIGNMENT - 1)) % SIZE_W / ALIGNMENT * ALIGNMENT = 0
    rw [hAl, hW]
    omega
  have hasize : asizeOf n = MIN_BLOCK_SIZE := by
    rw [asizeOf, hA]
    norm_num [MIN_BLOCK_SIZE]
  have hn0 : n ≠ 0 := by omega
  have hff : find_fit (init_allocator 1024).blocks MIN_BLOCK_SIZE =
      some (0, ⟨0, 992, true⟩) := by decide
  have hmal := malloc_eq (init_allocator 1024) n hn0
  rw [hasize, hff] at hmal
  refine ⟨hA, by rw [hA]; norm_num [MIN_BLOCK_SIZE], hasize, ?_, ?_⟩
  · rw [hmal]; decide
  · refine ⟨⟨0, MIN_BLOCK_SIZE, false⟩, ?_, rfl, rfl, ?_⟩
    · rw [hmal]
      decide
    · show MIN_BLOCK_SIZE < n
      norm_num [MIN_BLOCK_SIZE]
      omega

theorem claim_C10_witness :
    align_up (2 ^ 64 - 1) = 0 ∧
    asizeOf (2 ^ 64 - 1) = MIN_BLOCK_SIZE ∧
    (malloc (init_allocator 1024) (2 ^ 64 - 1)).2 = some HDR_SZ := by
  obtain ⟨ha, _, hb, hc, _⟩ := claim_C10 (2 ^ 64 - 1)
    (by norm_num [SIZE_MAX, ALIGNMENT]) (by norm_num [SIZE_MAX])
  exact ⟨ha, hb, hc⟩

theorem absorb_next_get : ∀ (bs : List Block) (i : Nat) (b nxt : Block),
    bs.get? i = some b → bs.get? (i + 1) = some nxt →
    (absorb_next bs i).get? i =
      some { b with size := b.size + HDR_SZ + nxt.size }
  | [], _, _, _, hg, _ => by simp at hg
  | b0 :: rest, 0, b, nxt, hg, hn => by
    cases rest with
    | nil => simp at hn
    | cons n1 rest2 =>
      simp only [List.get?_cons_zero, Option.some.injEq] at hg
      simp only [List.get?_cons_succ, List.get?_cons_zero,
        Option.some.injEq] at hn
      subst hg; subst hn
      rfl
  | b0 :: rest, i + 1, b, nxt, hg, hn => by
    cases rest with
    | nil => simp at hg
    | cons n1 rest2 =>
      show (b0 :: absorb_next (n1 :: rest2) i).get? (i + 1) = _
      rw [List.get?_cons_succ]
      exact absorb_next_get (n1 :: rest2) i b nxt (by simpa using hg)
        (by simpa using hn)

/-- Claim C6: allocate(0) yields null with no state change; otherwise
the chosen block is the first free block with payload at least the
rounded size, scanning the chain from its head in ascending address
order (so among equally sized candidates the lowest-address one wins
deterministically); when no free block qualifies the result is null
with no state change and no arena growth. -/
theorem claim_C6 (a : Arena) (sz : Nat) :
    malloc a 0 = (a, none) ∧
    (sz ≠ 0 → find_fit a.blocks (asizeOf sz) = none →
      malloc a sz = (a, none)) ∧
    (∀ i b, sz ≠ 0 → find_fit a.blocks (asizeOf sz) = some (i, b) →
      (malloc a sz).2 = some (b.addr + HDR_SZ) ∧
      a.blocks.get? i = some b ∧ b.free = true ∧ asizeOf sz ≤ b.size ∧
      (∀ j c, j < i → a.blocks.get? j = some c →
        ¬(c.free = true ∧ asizeOf sz ≤ c.size)) ∧
      (chainTiles a.blocks 0 a.total = true →
        ∀ j c, a.blocks.get? j = some c → c.free = true →
          asizeOf sz ≤ c.size → b.addr ≤ c.addr)) := by
  refine ⟨rfl, ?_, ?_⟩
  · intro hn hff
    rw [malloc_eq a sz hn, hff]
  · intro i b hn hff
    obtain ⟨hg, hf, hs, hmin⟩ := find_fit_spec a.blocks (asizeOf sz) i b hff
    refine ⟨?_, hg, hf, hs, hmin, ?_⟩
    · rw [malloc_eq a sz hn, hff]
    · intro ht j c hgc hcf hcs
      rcases Nat.lt_trichotomy j i with hji | hji | hji
      · exact absurd ⟨hcf, hcs⟩ (hmin j c hji hgc)
      · subst hji
        rw [hg] at hgc
        simp only [Option.some.injEq] at hgc
        rw [hgc]
      · exact le_of_lt (chainTiles_addr_lt a.blocks 0 a.total i j b c ht
          hji hg hgc)

theorem claim_C6_witness :
    (malloc (free ((malloc ((malloc (init_allocator 1024) 64).1) 64).1)
      (some 32)) 64).2 = some 32 := by
  have h := ((claim_C6 (free ((malloc ((malloc (init_allocator 1024)
    64).1) 64).1) (some 32)) 64).2.2 0 ⟨0, 64, true⟩ (by decide)
    (by decide)).1
  rw [h]
  decide

/-- Claim C7: a successful allocation first rounds the request up to
the alignment granularity and raises it to the minimum payload size if
below it; the found free block is split iff its payload can hold the
rounded size plus one header plus a minimum-payload remainder, in which
case a new free block is inserted immediately after it and the found
block's payload becomes exactly the rounded size; otherwise no split
occurs and the full block is handed over. -/
theorem claim_C7 (a : Arena) (sz i : Nat) (b : Block) (hn : sz ≠ 0)
    (hff : find_fit a.blocks (asizeOf sz) = some (i, b)) :
    (ALIGNMENT ∣ asizeOf sz ∧ MIN_BLOCK_SIZE ≤ asizeOf sz ∧
      (MIN_BLOCK_SIZE ≤ align_up sz → asizeOf sz = align_up sz)) ∧
    (malloc a sz).1.blocks =
      (if asizeOf sz + HDR_SZ + MIN_BLOCK_SIZE ≤ b.size then
        a.blocks.take i ++ { b with size := asizeOf sz, free := false } ::
          (⟨b.addr + HDR_SZ + asizeOf sz, b.size - asizeOf sz - HDR_SZ,
            true⟩ : Block) :: a.blocks.drop (i + 1)
      else a.blocks.take i ++ { b with free := false } ::
        a.blocks.drop (i + 1)) := by
  obtain ⟨hg, hf, _, _⟩ := find_fit_spec a.blocks (asizeOf sz) i b hff
  constructor
  · refine ⟨?_, ?_, ?_⟩
    · rw [asizeOf]
      by_cases hlt : align_up sz < MIN_BLOCK_SIZE
      · rw [if_pos hlt]; decide
      · rw [if_neg hlt]
        show ALIGNMENT ∣ (sz + (ALIGNMENT - 1)) % SIZE_W / ALIGNMENT *
          ALIGNMENT
        exact dvd_mul_left ALIGNMENT _
    · rw [asizeOf]
      by_cases hlt : align_up sz < MIN_BLOCK_SIZE
      · rw [if_pos hlt]
      · rw [if_neg hlt]; omega
    · intro hge
      rw [asizeOf, if_neg (by omega)]
  · rw [malloc_eq a sz hn, hff]
    show split_block a.blocks i (asizeOf sz) = _
    exact split_block_eq a.blocks i (asizeOf sz) b hg hf

theorem claim_C7_witness :
    (malloc (init_allocator 1024) 64).1.blocks =
      [⟨0, 64, false⟩, ⟨96, 896, true⟩] := by
  have h := (claim_C7 (init_allocator 1024) 64 0 ⟨0, 992, true⟩
    (by decide) (by decide)).2
  rw [h]
  decide

/-- Claim C4 (amended): when a resized block's payload already covers
the rounded new size, resize returns the same pointer, but no excess is
ever released: the split routine is invoked on a block that is not
free, refuses to act, and the arena state is completely unchanged. -/
theorem claim_C4 (a : Arena) (p new_size i : Nat) (b : Block)
    (h0 : new_size ≠ 0) (h1 : p < a.total)
    (h2 : findBlockIdx a.blocks (p - HDR_SZ) = some (i, b))
    (h3 : b.free = false) (h4 : asizeOf new_size ≤ b.size) :
    realloc a (some p) new_size = (a, some p) := by
  simp only [realloc, if_neg h0, if_neg (not_le.mpr h1), h2, if_pos h4]
  rw [split_block_not_free a.blocks i (asizeOf new_size) b
    (findBlockIdx_spec _ _ _ _ h2).1 h3]

/-- Counterexample to claim C4 as stated: the block at the resized
pointer has payload 128 and the rounded new size is 32, so the split
rule's condition 32 + header + minimum ≤ 128 holds and a free excess
block should appear — yet the chain is bit-for-bit unchanged. -/
theorem claim_C4_cex :
    (realloc (malloc (init_allocator 1024) 128).1 (some 32) 32).1.blocks
      = (malloc (init_allocator 1024) 128).1.blocks ∧
    (malloc (init_allocator 1024) 128).1.blocks =
      [⟨0, 128, false⟩, ⟨160, 832, true⟩] ∧
    asizeOf 32 + HDR_SZ + MIN_BLOCK_SIZE ≤ 128 ∧
    (realloc (malloc (init_allocator 1024) 128).1 (some 32) 32).2 =
      some 32 := by decide

/-- Claim C3 (amended): on the in-place grow path resize merges the
free successor into the current block and returns the same pointer
without touching any payload byte, but it does not split off the
excess: the split routine is invoked on the (not free) merged block,
refuses to act, and the block keeps the whole combined payload. -/
theorem claim_C3 (a : Arena) (p new_size i : Nat) (b nxt : Block)
    (h0 : new_size ≠ 0) (h1 : p < a.total)
    (h2 : findBlockIdx a.blocks (p - HDR_SZ) = some (i, b))
    (h3 : b.free = false) (h4 : b.size < asizeOf new_size)
    (h5 : a.blocks.get? (i + 1) = some nxt) (h6 : nxt.free = true)
    (h7 : asizeOf new_size ≤ b.size + HDR_SZ + nxt.size) :
    realloc a (some p) new_size =
      ({ a with blocks := absorb_next a.blocks i }, some p) ∧
    (absorb_next a.blocks i).get? i =
      some { b with size := b.size + HDR_SZ + nxt.size } ∧
    (realloc a (some p) new_size).1.mem = a.mem := by
  have hget := (findBlockIdx_spec _ _ _ _ h2).1
  have habs := absorb_next_get a.blocks i b nxt hget h5
  have hsplit : split_block (absorb_next a.blocks i) i (asizeOf new_size)
      = absorb_next a.blocks i :=
    split_block_not_free _ i _ _ habs (by simp [h3])
  have hset : setNotFree (absorb_next a.blocks i) i =
      absorb_next a.blocks i :=
    setNotFree_id _ i _ habs (by simp [h3])
  have hmain : realloc a (some p) new_size =
      ({ a with blocks := absorb_next a.blocks i }, some p) := by
    simp only [realloc, if_neg h0, if_neg (not_le.mpr h1), h2,
      if_neg (not_le.mpr h4), h5, if_pos (And.intro h6 h7)]
    rw [hsplit, hset]
  refine ⟨hmain, habs, ?_⟩
  rw [hmain]

/-- Counterexample to claim C3 as stated: after the forward merge the
block's combined payload is 992 while the rounded new size is 192, so
the split rule's condition holds and the claim requires payload exactly
192 plus a new free block — yet the merged block keeps all 992 bytes
and the chain has no free block at all. -/
theorem claim_C3_cex :
    (realloc (malloc (init_allocator 1024) 128).1 (some 32) 192).1.blocks
      = [⟨0, 992, false⟩] ∧
    asizeOf 192 + HDR_SZ + MIN_BLOCK_SIZE ≤ 992 ∧
    (realloc (malloc (init_allocator 1024) 128).1 (some 32) 192).2 =
      some 32 := by decide

theorem claim_C4_witness :
    realloc (malloc (init_allocator 1024) 128).1 (some 32) 64 =
      ((malloc (init_allocator 1024) 128).1, some 32) :=
  claim_C4 _ 32 64 0 ⟨0, 128, false⟩ (by decide) (by decide) (by decide)
    (by decide) (by decide)

theorem claim_C3_witness :
    (realloc (malloc (init_allocator 1024) 128).1 (some 32) 192).1.mem =
      (malloc (init_allocator 1024) 128).1.mem ∧
    (absorb_next (malloc (init_allocator 1024) 128).1.blocks 0).get? 0 =
      some ⟨0, 992, false⟩ := by
  have h := claim_C3 (malloc (init_allocator 1024) 128).1 32 192 0
    ⟨0, 128, false⟩ ⟨160, 832, true⟩ (by decide) (by decide) (by decide)
    (by decide) (by decide) (by decide) (by decide) (by decide)
  refine ⟨h.2.2, ?_⟩
  rw [h.2.1]
  decide

/-- Claim C5: when a relocate-path resize fails to allocate, resize
returns null and the arena — chain records, free flags, payload sizes
and every payload byte — is bit-identical to its pre-call state. -/
theorem claim_C5 (a : Arena) (p new_size i : Nat) (b : Block)
    (h0 : new_size ≠ 0) (h1 : p < a.total)
    (h2 : findBlockIdx a.blocks (p - HDR_SZ) = some (i, b))
    (h3 : b.size < asizeOf new_size)
    (h4 : ∀ nxt, a.blocks.get? (i + 1) = some nxt →
      ¬(nxt.free = true ∧ asizeOf new_size ≤ b.size + HDR_SZ + nxt.size))
    (h5 : find_fit a.blocks (asizeOf new_size) = none) :
    realloc a (some p) new_size = (a, none) := by
  have hmm : malloc a new_size = (a, none) := by
    rw [malloc_eq a new_size h0, h5]
  simp only [realloc, if_neg h0, if_neg (not_le.mpr h1), h2,
    if_neg (not_le.mpr h3)]
  cases hnx : a.blocks.get? (i + 1) with
  | none =>
    show reallocMove a p b new_size (asizeOf new_size) = (a, none)
    simp only [reallocMove, hmm]
  | some nxt =>
    show (if nxt.free = true ∧ asizeOf new_size ≤ b.size + HDR_SZ + nxt.size
        then ({ a with blocks := setNotFree (split_block
          (absorb_next a.blocks i) i (asizeOf new_size)) i }, some p)
        else reallocMove a p b new_size (asizeOf new_size)) = (a, none)
    rw [if_neg (h4 nxt hnx)]
    simp only [reallocMove, hmm]

theorem claim_C5_witness :
    realloc (malloc (init_allocator 128) 96).1 (some 32) 200 =
      ((malloc (init_allocator 128) 96).1, none) := by
  refine claim_C5 _ 32 200 0 ⟨0, 96, false⟩ (by decide) (by decide)
    (by decide) (by decide) ?_ (by decide)
  intro nxt h
  rw [show (malloc (init_allocator 128) 96).1.blocks.get? 1 = none from
    by decide] at h
  simp at h

/-- Claim C8: zero-allocate returns null when either argument is zero
or when count * element_size would overflow size_t (the source's guard
count > SIZE_MAX / element_size is exactly product overflow);
otherwise it behaves as an allocation of count * element_size bytes and
every byte of the requested region reads as zero. -/
theorem claim_C8 (a : Arena) (nmemb sz : Nat) :
    (nmemb = 0 ∨ sz = 0 → calloc a nmemb sz = (a, none)) ∧
    (0 < sz → (SIZE_MAX / sz < nmemb ↔ SIZE_MAX < nmemb * sz)) ∧
    (0 < nmemb → 0 < sz → SIZE_MAX < nmemb * sz →
      calloc a nmemb sz = (a, none)) ∧
    (0 < nmemb → 0 < sz → nmemb * sz ≤ SIZE_MAX →
      (calloc a nmemb sz).2 = (malloc a (nmemb * sz)).2 ∧
      (calloc a nmemb sz).1.blocks = (malloc a (nmemb * sz)).1.blocks) ∧
    (∀ a1 q, calloc a nmemb sz = (a1, some q) →
      ∀ o, q ≤ o → o < q + nmemb * sz → a1.mem o = 0) := by
  have hdiv : 0 < sz → (SIZE_MAX / sz < nmemb ↔ SIZE_MAX < nmemb * sz) :=
    fun hsz => Nat.div_lt_iff_lt_mul hsz
  refine ⟨?_, hdiv, ?_, ?_, ?_⟩
  · intro h; simp only [calloc, if_pos h]
  · intro hm hszp hov
    have hz : ¬(nmemb = 0 ∨ sz = 0) := by omega
    simp only [calloc, if_neg hz, if_pos ((hdiv hszp).2 hov)]
  · intro hm hszp hov
    have hz : ¬(nmemb = 0 ∨ sz = 0) := by omega
    have hng : ¬(SIZE_MAX / sz < nmemb) := by
      rw [hdiv hszp]; omega
    simp only [calloc, if_neg hz, if_neg hng]
    cases hmm : malloc a (nmemb * sz) with
    | mk a2 r =>
      cases r with
      | none => exact ⟨rfl, rfl⟩
      | some pp => exact ⟨rfl, rfl⟩
  · intro a1 q hc o ho1 ho2
    by_cases hz : nmemb = 0 ∨ sz = 0
    · simp only [calloc, if_pos hz, Prod.mk.injEq] at hc
      exact absurd hc.2 (by simp)
    · simp only [calloc, if_neg hz] at hc
      by_cases hov : SIZE_MAX / sz < nmemb
      · rw [if_pos hov] at hc
        simp only [Prod.mk.injEq] at hc
        exact absurd hc.2 (by simp)
      · rw [if_neg hov] at hc
        cases hmm : malloc a (nmemb * sz) with
        | mk a2 r =>
          rw [hmm] at hc
          cases r with
          | none =>
            simp only [Prod.mk.injEq] at hc
            exact absurd hc.2 (by simp)
          | some pp =>
            simp only [Prod.mk.injEq, Option.some.injEq] at hc
            obtain ⟨h1, h2⟩ := hc
            rw [← h1, h2]
            show (if q ≤ o ∧ o < q + nmemb * sz then 0 else a2.mem o) = 0
            rw [if_pos ⟨ho1, ho2⟩]

theorem claim_C8_witness :
    calloc (init_allocator 1024) 0 4 = (init_allocator 1024, none) ∧
    (calloc (init_allocator 1024) 10 4).1.mem 35 = 0 := by
  constructor
  · exact (claim_C8 (init_allocator 1024) 0 4).1 (Or.inl rfl)
  · refine (claim_C8 (init_allocator 1024) 10 4).2.2.2.2
      (calloc (init_allocator 1024) 10 4).1 32 ?_ 35 (by decide)
      (by decide)
    have h2 : (calloc (init_allocator 1024) 10 4).2 = some 32 := by decide
    rw [← h2]

end MiniAlloc
